import Mathlib

/-!
Verification of the Paillier cryptosystem core (`src/paillier_core.py`).

The Python code is shallowly embedded: Python arbitrary-precision
integers become `ℤ` (or `ℕ` where the source value is provably
non-negative), Python `%` on a positive modulus is `Int.emod` / `Nat.mod`,
Python `//` is `Int.fdiv`, and `pow(b, e, m)` is `b ^ e % m`.  The
random draws made inside the source (the blinding factor `r` in
`encrypt`, the candidate stream and Miller-Rabin witnesses in prime
generation) are made explicit parameters, constrained exactly by the
postconditions of the sampling loops that produce them.
-/

namespace Paillier

/-- `PaillierCore._compute_lcm`: `abs(a * b) // math.gcd(a, b)`.
Both call sites pass the non-negative values `p - 1`, `q - 1`, so the
embedding uses `ℕ` (where `abs` is the identity and `//` is `Nat.div`). -/
def compute_lcm (a b : ℕ) : ℕ :=
  a * b / Nat.gcd a b

/-- `PaillierCore._extended_gcd`: recursive extended Euclid returning
`(gcd, x, y)` with `a*x + b*y = gcd`.  The function is only reached with
non-negative arguments (`_modular_inverse` first reduces `a % m`), and on
such arguments every recursive call keeps both arguments non-negative,
so the embedding takes `ℕ` arguments; the Bézout coefficients are `ℤ`. -/
def extended_gcd (a b : ℕ) : ℕ × ℤ × ℤ :=
  if h : a = 0 then
    (b, 0, 1)
  else
    let r := extended_gcd (b % a) a
    (r.1, r.2.2 - (b / a : ℕ) * r.2.1, r.2.1)
termination_by a
decreasing_by exact Nat.mod_lt _ (Nat.pos_of_ne_zero h)

/-- `PaillierCore._modular_inverse`: computes `_extended_gcd(a % m, m)`;
raises `ValueError` when the gcd is not 1 (embedded as `none`), and
otherwise returns `(x % m + m) % m`.  Faithful for every `a` and every
`m > 0` (the only way the source calls it). -/
def modular_inverse (a m : ℤ) : Option ℤ :=
  let r := extended_gcd (a % m).toNat m.toNat
  if r.1 ≠ 1 then none
  else some ((r.2.1 % m + m) % m)

/-- The key material computed and stored by `PaillierCore._generate_keypair`:
`public_key = {n, g}`, `private_key = {lambda, mu, n}` and the cached
`n_squared`.  `lam` is the source's `lambda` (a reserved word in Lean). -/
structure KeyPair where
  n : ℕ
  g : ℕ
  lam : ℕ
  mu : ℤ
  n_squared : ℕ
deriving DecidableEq

/-- `PaillierCore._generate_keypair`, parameterised by the two primes `p`,
`q` delivered by the sampling loop (whose postcondition `p ≠ q`, both
probable primes, becomes a hypothesis of the theorems).  The source
raises `ValueError` out of `_modular_inverse` when `gcd(lambda, n) ≠ 1`;
that failure is embedded as `none`. -/
def generate_keypair (p q : ℕ) : Option KeyPair :=
  let n := p * q
  let lambda_n := compute_lcm (p - 1) (q - 1)
  match modular_inverse (lambda_n : ℤ) (n : ℤ) with
  | none => none
  | some mu => some { n := n, g := n + 1, lam := lambda_n, mu := mu, n_squared := n * n }

/-- `PaillierCore.encrypt`.  The blinding factor `r` drawn by the
rejection-sampling loop (`random.randrange(1, n)` until `gcd(r, n) = 1`)
is an explicit parameter.  The two `ValueError`s on `plaintext < 0` and
`plaintext ≥ n` are embedded as `none`; the ciphertext is
`pow(g, m, n²) * pow(r, n, n²) % n²`. -/
def encrypt (k : KeyPair) (plaintext : ℤ) (r : ℕ) : Option ℤ :=
  if plaintext < 0 then none
  else if (k.n : ℤ) ≤ plaintext then none
  else some ((((k.g : ℤ) ^ plaintext.toNat % (k.n_squared : ℤ)) *
              ((r : ℤ) ^ k.n % (k.n_squared : ℤ))) % (k.n_squared : ℤ))

/-- `PaillierCore._L_function`: `(x - 1) // n` with Python floor
division. -/
def L_function (k : KeyPair) (x : ℤ) : ℤ :=
  (x - 1).fdiv (k.n : ℤ)

/-- `PaillierCore.decrypt`: `m = L(pow(c, lambda, n²)) * mu % n`.  Total
on every integer ciphertext, exactly like the source (which performs no
range check on `ciphertext`). -/
def decrypt (k : KeyPair) (ciphertext : ℤ) : ℤ :=
  let c_lambda := ciphertext ^ k.lam % (k.n_squared : ℤ)
  let l_result := L_function k c_lambda
  (l_result * k.mu) % (k.n : ℤ)

/-- `PaillierCore.homomorphic_add`: `(c1 * c2) % n²`. -/
def homomorphic_add (k : KeyPair) (ciphertext1 ciphertext2 : ℤ) : ℤ :=
  (ciphertext1 * ciphertext2) % (k.n_squared : ℤ)

/-- `PaillierCore.homomorphic_multiply_constant`: raises `ValueError` on
a negative constant (embedded `none`), else `pow(c, constant, n²)`. -/
def homomorphic_multiply_constant (k : KeyPair) (ciphertext constant : ℤ) : Option ℤ :=
  if constant < 0 then none
  else some (ciphertext ^ constant.toNat % (k.n_squared : ℤ))

/-- `create_paillier_instance`: validates `bit_length ≥ 512` and
`bit_length % 2 == 0` (each failure raises `ValueError`, embedded
`none`) before constructing `PaillierCore`, whose `__init__` re-checks
`bit_length ≥ 512` and then runs `_generate_keypair`.  The primes the
generator will sample are explicit parameters `p`, `q`. -/
def create_paillier_instance (bit_length : ℤ) (p q : ℕ) : Option KeyPair :=
  if bit_length < 512 then none
  else if bit_length % 2 ≠ 0 then none
  else if bit_length < 512 then none
  else generate_keypair p q


/-- The halving loop in `_miller_rabin_test` writing `n - 1 = d * 2^r` with
`d` odd: returns `(r, d)`.  The `m ≠ 0` guard only serves termination of
the embedding; every call site passes `m = n - 1 ≥ 4`, where the source
loop also terminates. -/
def mr_split (m : ℕ) : ℕ × ℕ :=
  if h : m % 2 = 0 ∧ m ≠ 0 then
    let r := mr_split (m / 2)
    (r.1 + 1, r.2)
  else (0, m)
termination_by m
decreasing_by exact Nat.div_lt_self (Nat.pos_of_ne_zero h.2) one_lt_two

/-- The `for _ in range(t)` squaring loop of one Miller-Rabin round:
returns `true` when some squaring reaches `n - 1` (witness passes). -/
def mr_squares (n : ℕ) : ℕ → ℕ → Bool
  | 0, _ => false
  | t + 1, x =>
    let x2 := x * x % n
    if x2 = n - 1 then true else mr_squares n t x2

/-- One round of `_miller_rabin_test` on witness `a`: the witness passes
when `a^d mod n ∈ {1, n-1}` or some of the `r - 1` squarings hits `n - 1`. -/
def mr_witness_passes (n d r a : ℕ) : Bool :=
  let x := a ^ d % n
  if x = 1 ∨ x = n - 1 then true
  else mr_squares n (r - 1) x

/-- `PaillierCore._miller_rabin_test` with the per-round witness draws
`random.randrange(2, n - 1)` given as the explicit list `ws` (one entry
per round; the source default is 10 rounds). -/
def miller_rabin_test (n : ℕ) (ws : List ℕ) : Bool :=
  if n < 2 then false
  else if n = 2 ∨ n = 3 then true
  else if n % 2 = 0 then false
  else
    let rd := mr_split (n - 1)
    ws.all fun a => mr_witness_passes n rd.2 rd.1 a

/-- The `small_primes` list in `_generate_prime`. -/
def small_primes : List ℕ := [3, 5, 7, 11, 13, 17, 19, 23, 29, 31]

/-- Candidate preparation in `_generate_prime`: force the top bit (exact
bit length) and the bottom bit (odd). -/
def force_bits (bit_length c : ℕ) : ℕ :=
  (c ||| (1 <<< (bit_length - 1))) ||| 1

/-- The quick rejection in `_generate_prime`:
`any(candidate % p == 0 for p in small_primes if candidate != p)`. -/
def small_prime_reject (candidate : ℕ) : Bool :=
  small_primes.any fun sp => decide (candidate ≠ sp ∧ candidate % sp = 0)

/-- One iteration of the `while True` loop in `_generate_prime`, on the
candidate draw `random.getrandbits(bit_length) = draw` and Miller-Rabin
witness draws `ws`: `some` = the loop returns, `none` = it retries. -/
def generate_prime_step (bit_length draw : ℕ) (ws : List ℕ) : Option ℕ :=
  let candidate := force_bits bit_length draw
  if small_prime_reject candidate then none
  else if miller_rabin_test candidate ws then some candidate
  else none

/-- `_generate_prime` observed for `fuel` iterations starting at iteration
`i`, drawing candidate `draws j` and witnesses `wss j` at iteration `j`.
`none` means the loop has not returned within the observed iterations: the
source loop is `while True` with no iteration counter, no cap, and no
failure outcome — its only exit is returning a passing candidate. -/
def generate_prime_from (bit_length : ℕ) (draws : ℕ → ℕ) (wss : ℕ → List ℕ) :
    ℕ → ℕ → Option ℕ
  | 0, _ => none
  | fuel + 1, i =>
    match generate_prime_step bit_length (draws i) (wss i) with
    | some pr => some pr
    | none => generate_prime_from bit_length draws wss fuel (i + 1)

/-- `_generate_prime` observed from the start of its loop. -/
def generate_prime_upto (bit_length : ℕ) (draws : ℕ → ℕ) (wss : ℕ → List ℕ)
    (fuel : ℕ) : Option ℕ :=
  generate_prime_from bit_length draws wss fuel 0

theorem extended_gcd_spec (a : ℕ) : ∀ b : ℕ,
    (extended_gcd a b).1 = Nat.gcd a b ∧
    (a : ℤ) * (extended_gcd a b).2.1 + (b : ℤ) * (extended_gcd a b).2.2
      = ((extended_gcd a b).1 : ℤ) := by
  induction a using Nat.strong_induction_on with
  | _ a ih =>
    intro b
    by_cases h : a = 0
    · subst h
      rw [extended_gcd]
      simp
    · rw [extended_gcd, dif_neg h]
      have hpos : 0 < a := Nat.pos_of_ne_zero h
      obtain ⟨ih1, ih2⟩ := ih (b % a) (Nat.mod_lt _ hpos) a
      refine ⟨ih1.trans (Nat.gcd_rec a b).symm, ?_⟩
      have hdm : (a : ℤ) * ((b / a : ℕ) : ℤ) + ((b % a : ℕ) : ℤ) = (b : ℤ) := by
        exact_mod_cast Nat.div_add_mod b a
      show (a : ℤ) * ((extended_gcd (b % a) a).2.2 - ((b / a : ℕ) : ℤ) * (extended_gcd (b % a) a).2.1)
            + (b : ℤ) * (extended_gcd (b % a) a).2.1 = ((extended_gcd (b % a) a).1 : ℤ)
      linear_combination ih2 - (extended_gcd (b % a) a).2.1 * hdm

theorem int_gcd_emod_left (a m : ℤ) : Int.gcd (a % m) m = Int.gcd a m := by
  have hd : m * (a / m) + a % m = a := Int.ediv_add_emod a m
  apply Nat.dvd_antisymm
  · rw [← Int.natCast_dvd_natCast]
    refine Int.dvd_gcd ?_ Int.gcd_dvd_right
    have h1 : (↑(Int.gcd (a % m) m) : ℤ) ∣ m * (a / m) + a % m :=
      dvd_add (Int.gcd_dvd_right.mul_right _) Int.gcd_dvd_left
    rwa [hd] at h1
  · rw [← Int.natCast_dvd_natCast]
    refine Int.dvd_gcd ?_ Int.gcd_dvd_right
    have h2 : a % m = a - m * (a / m) := by linarith
    rw [h2]
    exact dvd_sub Int.gcd_dvd_left (Int.gcd_dvd_right.mul_right _)

theorem modular_inverse_gcd_eq (a m : ℤ) (hm : 0 < m) :
    (extended_gcd (a % m).toNat m.toNat).1 = Int.gcd a m := by
  have h1 : (((a % m).toNat : ℤ)) = a % m := Int.toNat_of_nonneg (Int.emod_nonneg a (ne_of_gt hm))
  have h2 : ((m.toNat : ℤ)) = m := Int.toNat_of_nonneg hm.le
  rw [(extended_gcd_spec _ _).1, ← Int.gcd_natCast_natCast, h1, h2, int_gcd_emod_left]

theorem modular_inverse_none (a m : ℤ) (hm : 0 < m) (h : Int.gcd a m ≠ 1) :
    modular_inverse a m = none := by
  simp only [modular_inverse, modular_inverse_gcd_eq a m hm]
  simp [h]

theorem modular_inverse_some (a m : ℤ) (hm : 0 < m) (h : Int.gcd a m = 1) :
    ∃ x, modular_inverse a m = some x ∧ 0 ≤ x ∧ x < m ∧ a * x ≡ 1 [ZMOD m] := by
  set x := (extended_gcd (a % m).toNat m.toNat).2.1 with hx
  set y := (extended_gcd (a % m).toNat m.toNat).2.2 with hy
  refine ⟨(x % m + m) % m, ?_, ?_, ?_, ?_⟩
  · simp only [modular_inverse, modular_inverse_gcd_eq a m hm]
    simp [h]
  · exact Int.emod_nonneg _ (ne_of_gt hm)
  · exact Int.emod_lt_of_pos _ hm
  · have hbez := (extended_gcd_spec ((a % m).toNat) m.toNat).2
    rw [(extended_gcd_spec _ _).1] at hbez
    have hcast1 : (((a % m).toNat : ℤ)) = a % m :=
      Int.toNat_of_nonneg (Int.emod_nonneg a (ne_of_gt hm))
    have hcast2 : ((m.toNat : ℤ)) = m := Int.toNat_of_nonneg hm.le
    have hgnat : (Nat.gcd (a % m).toNat m.toNat : ℤ) = 1 := by
      rw [← Int.gcd_natCast_natCast, hcast1, hcast2, int_gcd_emod_left, h]
      norm_num
    rw [hcast1, hcast2, hgnat] at hbez
    -- hbez : (a % m) * x + m * y = 1
    have e1 : (x % m + m) % m ≡ x [ZMOD m] := by
      unfold Int.ModEq
      have h0 : (x % m + m * 1) % m = x % m % m := Int.add_mul_emod_self_left (x % m) m 1
      rw [mul_one] at h0
      rw [h0, Int.emod_emod_of_dvd _ dvd_rfl, Int.emod_emod_of_dvd _ dvd_rfl]
    have e2 : a ≡ a % m [ZMOD m] := (Int.emod_emod_of_dvd a dvd_rfl).symm
    calc a * ((x % m + m) % m)
        ≡ (a % m) * x [ZMOD m] := Int.ModEq.mul e2 e1
      _ = 1 - m * y := by linarith
      _ ≡ 1 - 0 [ZMOD m] := Int.ModEq.sub (Int.ModEq.refl 1)
            (Int.modEq_zero_iff_dvd.mpr ⟨y, rfl⟩)
      _ = 1 := by ring

theorem compute_lcm_eq_lcm (a b : ℕ) : compute_lcm a b = Nat.lcm a b := rfl

theorem generate_keypair_fields {p q : ℕ} {k : KeyPair}
    (hk : generate_keypair p q = some k) :
    k.n = p * q ∧ k.g = p * q + 1 ∧ k.lam = compute_lcm (p - 1) (q - 1) ∧
    k.n_squared = p * q * (p * q) ∧
    modular_inverse (k.lam : ℤ) (k.n : ℤ) = some k.mu := by
  simp only [generate_keypair] at hk
  cases hmi : modular_inverse ((compute_lcm (p - 1) (q - 1) : ℕ) : ℤ) ((p * q : ℕ) : ℤ) with
  | none => rw [hmi] at hk; cases hk
  | some mu =>
    rw [hmi] at hk
    simp only [Option.some.injEq] at hk
    subst hk
    exact ⟨rfl, rfl, rfl, rfl, hmi⟩

theorem one_add_n_pow_modEq (n j : ℕ) : (n + 1) ^ j ≡ 1 + j * n [MOD n ^ 2] := by
  induction j with
  | zero => simpa using Nat.ModEq.refl 1
  | succ j ih =>
    calc (n + 1) ^ (j + 1) = (n + 1) ^ j * (n + 1) := pow_succ _ _
      _ ≡ (1 + j * n) * (n + 1) [MOD n ^ 2] := Nat.ModEq.mul_right _ ih
      _ = (1 + (j + 1) * n) + j * n ^ 2 := by ring
      _ ≡ (1 + (j + 1) * n) + 0 [MOD n ^ 2] :=
          Nat.ModEq.add_left _ (Nat.modEq_zero_iff_dvd.mpr ⟨j, by ring⟩)
      _ = 1 + (j + 1) * n := by ring

theorem pow_p_mul_p_sub_one {p : ℕ} (hp : p.Prime) {u : ℕ} (hu : Nat.Coprime u p) :
    u ^ (p * (p - 1)) ≡ 1 [MOD p ^ 2] := by
  have hcop : Nat.Coprime u (p ^ 2) := hu.pow_right 2
  have h := Nat.ModEq.pow_totient hcop
  rw [Nat.totient_prime_pow hp (by norm_num : 0 < 2)] at h
  simpa [pow_one] using h

theorem pow_lam_modEq_one {p q lam u : ℕ} (hp : p.Prime) (hq : q.Prime) (hne : p ≠ q)
    (hpl : (p - 1) ∣ lam) (hql : (q - 1) ∣ lam)
    (hu : Nat.Coprime u (p * q)) : u ^ lam ≡ 1 [MOD p * q] := by
  have hup : Nat.Coprime u p := Nat.Coprime.coprime_dvd_right ⟨q, rfl⟩ hu
  have huq : Nat.Coprime u q := Nat.Coprime.coprime_dvd_right ⟨p, mul_comm p q⟩ hu
  have h1 : u ^ lam ≡ 1 [MOD p] := by
    obtain ⟨t, rfl⟩ := hpl
    have h := Nat.ModEq.pow_totient hup
    rw [Nat.totient_prime hp] at h
    calc u ^ ((p - 1) * t) = (u ^ (p - 1)) ^ t := by rw [pow_mul]
      _ ≡ 1 ^ t [MOD p] := h.pow t
      _ = 1 := one_pow t
  have h2 : u ^ lam ≡ 1 [MOD q] := by
    obtain ⟨t, rfl⟩ := hql
    have h := Nat.ModEq.pow_totient huq
    rw [Nat.totient_prime hq] at h
    calc u ^ ((q - 1) * t) = (u ^ (q - 1)) ^ t := by rw [pow_mul]
      _ ≡ 1 ^ t [MOD q] := h.pow t
      _ = 1 := one_pow t
  exact (Nat.modEq_and_modEq_iff_modEq_mul ((Nat.coprime_primes hp hq).mpr hne)).mp ⟨h1, h2⟩

theorem pow_n_lam_modEq_one {p q lam u : ℕ} (hp : p.Prime) (hq : q.Prime) (hne : p ≠ q)
    (hpl : (p - 1) ∣ lam) (hql : (q - 1) ∣ lam)
    (hu : Nat.Coprime u (p * q)) : u ^ (p * q * lam) ≡ 1 [MOD (p * q) ^ 2] := by
  have hup : Nat.Coprime u p := Nat.Coprime.coprime_dvd_right ⟨q, rfl⟩ hu
  have huq : Nat.Coprime u q := Nat.Coprime.coprime_dvd_right ⟨p, mul_comm p q⟩ hu
  have h1 : u ^ (p * q * lam) ≡ 1 [MOD p ^ 2] := by
    obtain ⟨t, ht⟩ := hpl
    have key := pow_p_mul_p_sub_one hp hup
    have hexp : p * q * lam = p * (p - 1) * (q * t) := by rw [ht]; ring
    calc u ^ (p * q * lam) = (u ^ (p * (p - 1))) ^ (q * t) := by rw [← pow_mul, ← hexp]
      _ ≡ 1 ^ (q * t) [MOD p ^ 2] := key.pow _
      _ = 1 := one_pow _
  have h2 : u ^ (p * q * lam) ≡ 1 [MOD q ^ 2] := by
    obtain ⟨t, ht⟩ := hql
    have key := pow_p_mul_p_sub_one hq huq
    have hexp : p * q * lam = q * (q - 1) * (p * t) := by rw [ht]; ring
    calc u ^ (p * q * lam) = (u ^ (q * (q - 1))) ^ (p * t) := by rw [← pow_mul, ← hexp]
      _ ≡ 1 ^ (p * t) [MOD q ^ 2] := key.pow _
      _ = 1 := one_pow _
  have hcop : Nat.Coprime (p ^ 2) (q ^ 2) :=
    Nat.Coprime.pow 2 2 ((Nat.coprime_primes hp hq).mpr hne)
  have h := (Nat.modEq_and_modEq_iff_modEq_mul hcop).mp ⟨h1, h2⟩
  rwa [show p ^ 2 * q ^ 2 = (p * q) ^ 2 by ring] at h

theorem keypair_basic {p q : ℕ} {k : KeyPair} (hp : p.Prime) (hq : q.Prime)
    (hne : p ≠ q) (hk : generate_keypair p q = some k) :
    1 < k.n ∧ Nat.gcd k.lam k.n = 1 ∧ (p - 1) ∣ k.lam ∧ (q - 1) ∣ k.lam ∧
    0 ≤ k.mu ∧ k.mu < (k.n : ℤ) ∧ (k.lam : ℤ) * k.mu ≡ 1 [ZMOD (k.n : ℤ)] := by
  obtain ⟨hn, hg, hlam, hnsq, hmi⟩ := generate_keypair_fields hk
  have hn1 : 1 < k.n := by
    rw [hn]
    have h2 := hp.two_le
    have h3 := hq.two_le
    nlinarith
  have hnpos : (0 : ℤ) < (k.n : ℤ) := by exact_mod_cast Nat.lt_of_lt_of_le Nat.zero_lt_one hn1.le
  have hgcd : Nat.gcd k.lam k.n = 1 := by
    by_contra hne1
    have hig : Int.gcd (k.lam : ℤ) (k.n : ℤ) ≠ 1 := by
      rwa [Int.gcd_natCast_natCast]
    rw [modular_inverse_none _ _ hnpos hig] at hmi
    cases hmi
  have hig : Int.gcd (k.lam : ℤ) (k.n : ℤ) = 1 := by
    rw [Int.gcd_natCast_natCast]; exact hgcd
  obtain ⟨x, hxeq, hx0, hxlt, hxmod⟩ := modular_inverse_some _ _ hnpos hig
  rw [hmi] at hxeq
  obtain rfl : k.mu = x := Option.some.inj hxeq
  refine ⟨hn1, hgcd, ?_, ?_, hx0, hxlt, hxmod⟩
  · rw [hlam, compute_lcm_eq_lcm]; exact Nat.dvd_lcm_left _ _
  · rw [hlam, compute_lcm_eq_lcm]; exact Nat.dvd_lcm_right _ _

theorem decrypt_raw_power {p q : ℕ} {k : KeyPair} (hp : p.Prime) (hq : q.Prime)
    (hne : p ≠ q) (hk : generate_keypair p q = some k) (M R : ℕ)
    (hR : Nat.Coprime R k.n) :
    decrypt k ((k.g ^ M * R ^ k.n % k.n_squared : ℕ) : ℤ) = ((M % k.n : ℕ) : ℤ) := by
  obtain ⟨hn, hg, hlam, hnsq, hmi⟩ := generate_keypair_fields hk
  obtain ⟨hn1, hgcd, hpl, hql, hmu0, hmult, hmueq⟩ := keypair_basic hp hq hne hk
  have hnpos : 0 < k.n := lt_trans Nat.zero_lt_one hn1
  have hgn : k.g = k.n + 1 := by rw [hg, hn]
  have hnsq' : k.n_squared = k.n ^ 2 := by rw [hnsq, hn]; ring
  have hslt : M * k.lam % k.n < k.n := Nat.mod_lt _ hnpos
  have hRn : Nat.Coprime R (p * q) := by rwa [hn] at hR
  have hpow : R ^ (k.n * k.lam) ≡ 1 [MOD k.n ^ 2] := by
    rw [hn]
    exact pow_n_lam_modEq_one hp hq hne hpl hql hRn
  have hstep : (k.g ^ M * R ^ k.n % k.n_squared) ^ k.lam
      ≡ 1 + M * k.lam % k.n * k.n [MOD k.n ^ 2] := by
    calc (k.g ^ M * R ^ k.n % k.n_squared) ^ k.lam
        ≡ (k.g ^ M * R ^ k.n) ^ k.lam [MOD k.n ^ 2] := by
          rw [← hnsq']
          exact (Nat.mod_modEq _ _).pow _
      _ = (k.n + 1) ^ (M * k.lam) * R ^ (k.n * k.lam) := by rw [hgn]; ring
      _ ≡ (1 + M * k.lam * k.n) * 1 [MOD k.n ^ 2] :=
          Nat.ModEq.mul (one_add_n_pow_modEq k.n (M * k.lam)) hpow
      _ = 1 + M * k.lam % k.n * k.n + M * k.lam / k.n * k.n ^ 2 := by
          conv_lhs => rw [mul_one, ← Nat.div_add_mod (M * k.lam) k.n]
          ring
      _ ≡ 1 + M * k.lam % k.n * k.n + 0 [MOD k.n ^ 2] :=
          Nat.ModEq.add_left _ (Nat.modEq_zero_iff_dvd.mpr ⟨_, mul_comm _ _⟩)
      _ = 1 + M * k.lam % k.n * k.n := by ring
  have hlt : 1 + M * k.lam % k.n * k.n < k.n ^ 2 := by nlinarith
  have hmodeq : (k.g ^ M * R ^ k.n % k.n_squared) ^ k.lam % k.n_squared
      = 1 + M * k.lam % k.n * k.n := by
    rw [hnsq']
    rw [hnsq'] at hstep
    unfold Nat.ModEq at hstep
    rw [hstep, Nat.mod_eq_of_lt hlt]
  simp only [decrypt, L_function]
  have hc : (((k.g ^ M * R ^ k.n % k.n_squared : ℕ) : ℤ)) ^ k.lam % (k.n_squared : ℤ)
      = ((1 + M * k.lam % k.n * k.n : ℕ) : ℤ) := by
    rw [← Nat.cast_pow, ← Int.natCast_mod, hmodeq]
  rw [hc]
  have hnz : ((k.n : ℤ)) ≠ 0 := Int.natCast_ne_zero.mpr hnpos.ne'
  have hL : ((((1 + M * k.lam % k.n * k.n : ℕ) : ℤ)) - 1).fdiv (k.n : ℤ)
      = ((M * k.lam % k.n : ℕ) : ℤ) := by
    have he : ((((1 + M * k.lam % k.n * k.n : ℕ) : ℤ)) - 1)
        = ((M * k.lam % k.n : ℕ) : ℤ) * (k.n : ℤ) := by push_cast; ring
    rw [he, Int.fdiv_eq_ediv _ (Int.natCast_nonneg _), Int.mul_ediv_cancel _ hnz]
  rw [hL, Int.natCast_mod M k.n]
  show ((M * k.lam % k.n : ℕ) : ℤ) * k.mu ≡ (M : ℤ) [ZMOD (k.n : ℤ)]
  have hcast : ((M * k.lam % k.n : ℕ) : ℤ) ≡ (M : ℤ) * (k.lam : ℤ) [ZMOD (k.n : ℤ)] := by
    rw [Int.natCast_mod]
    calc ((M * k.lam : ℕ) : ℤ) % (k.n : ℤ) ≡ ((M * k.lam : ℕ) : ℤ) [ZMOD (k.n : ℤ)] :=
        Int.emod_emod_of_dvd _ dvd_rfl
      _ = (M : ℤ) * (k.lam : ℤ) := by push_cast; ring
  calc ((M * k.lam % k.n : ℕ) : ℤ) * k.mu
      ≡ (M : ℤ) * (k.lam : ℤ) * k.mu [ZMOD (k.n : ℤ)] := hcast.mul_right _
    _ = (M : ℤ) * ((k.lam : ℤ) * k.mu) := by ring
    _ ≡ (M : ℤ) * 1 [ZMOD (k.n : ℤ)] := hmueq.mul_left _
    _ = (M : ℤ) := by ring

theorem encrypt_eq_some {k : KeyPair} {m : ℤ} (r : ℕ) (h0 : 0 ≤ m) (hlt : m < (k.n : ℤ)) :
    encrypt k m r = some ((k.g ^ m.toNat * r ^ k.n % k.n_squared : ℕ) : ℤ) := by
  unfold encrypt
  rw [if_neg (not_lt.mpr h0), if_neg (not_le.mpr hlt)]
  congr 1
  rw [Nat.mul_mod]
  push_cast
  ring

theorem exists_bezout_nat {lam n : ℕ} (h : Nat.gcd lam n = 1) (hn : 1 < n) :
    ∃ a b : ℕ, a * n = 1 + b * lam := by
  rcases eq_or_ne lam 0 with rfl | hl0
  · rw [Nat.gcd_zero_left] at h
    omega
  rcases eq_or_ne lam 1 with rfl | hl1
  · exact ⟨1, n - 1, by omega⟩
  have hcop : Nat.Coprime n lam := Nat.coprime_comm.mp h
  have heuler := Nat.ModEq.pow_totient hcop
  have h1 : n ^ Nat.totient lam % lam = 1 := by
    unfold Nat.ModEq at heuler
    rw [heuler, Nat.mod_eq_of_lt (by omega)]
  refine ⟨n ^ (Nat.totient lam - 1), n ^ Nat.totient lam / lam, ?_⟩
  have hsplit := Nat.div_add_mod (n ^ Nat.totient lam) lam
  rw [h1] at hsplit
  have htpos : 0 < Nat.totient lam := Nat.totient_pos.mpr (by omega)
  have hpowsucc : n ^ (Nat.totient lam - 1) * n = n ^ Nat.totient lam := by
    rw [← pow_succ]
    congr 1
    omega
  rw [hpowsucc]
  have hcomm := mul_comm lam (n ^ Nat.totient lam / lam)
  linarith

/-- C1: for every key pair produced by key generation (two distinct probable
primes `p ≠ q` for which the generator succeeds) and every plaintext
`0 ≤ m < n`, with any blinding factor `r` satisfying the postcondition of
the sampling loop inside `encrypt` (`1 ≤ r < n`, `gcd(r, n) = 1`),
decrypting the encryption of `m` returns exactly `m`. -/
theorem C1_round_trip {p q : ℕ} {k : KeyPair} (hp : p.Prime) (hq : q.Prime)
    (hne : p ≠ q) (hk : generate_keypair p q = some k)
    {m : ℤ} (hm0 : 0 ≤ m) (hmn : m < (k.n : ℤ))
    {r : ℕ} (hr1 : 1 ≤ r) (hrn : r < k.n) (hrcop : Nat.gcd r k.n = 1)
    {c : ℤ} (hc : encrypt k m r = some c) :
    decrypt k c = m := by
  rw [encrypt_eq_some r hm0 hmn] at hc
  obtain rfl : c = _ := (Option.some.inj hc).symm
  rw [decrypt_raw_power hp hq hne hk m.toNat r hrcop]
  have hlt : m.toNat < k.n := by omega
  rw [Nat.mod_eq_of_lt hlt, Int.toNat_of_nonneg hm0]

/-- C5: for every integer `a` and modulus `m > 0`, `_modular_inverse` returns
an `x` in `[0, m)` with `a * x ≡ 1 (mod m)` when `gcd(a, m) = 1`, and raises
`ValueError` (embedded as `none`) when `gcd(a, m) ≠ 1`. -/
theorem C5_modular_inverse (a m : ℤ) (hm : 0 < m) :
    (Int.gcd a m = 1 →
      ∃ x, modular_inverse a m = some x ∧ 0 ≤ x ∧ x < m ∧ a * x ≡ 1 [ZMOD m]) ∧
    (Int.gcd a m ≠ 1 → modular_inverse a m = none) :=
  ⟨fun h => modular_inverse_some a m hm h, fun h => modular_inverse_none a m hm h⟩

/-- C6: every key pair returned by `_generate_keypair` (on distinct primes,
the postcondition of the sampling loop) satisfies `n = p*q`,
`n_squared = n*n`, `g = n+1`, `lambda = lcm(p-1, q-1)`, `gcd(lambda, n) = 1`
and `(lambda * mu) mod n = 1`; the embedding is purely functional, so the
record is immutable by construction. -/
theorem C6_keypair_invariants {p q : ℕ} {k : KeyPair} (hp : p.Prime) (hq : q.Prime)
    (hne : p ≠ q) (hk : generate_keypair p q = some k) :
    p ≠ q ∧ k.n = p * q ∧ k.n_squared = k.n * k.n ∧ k.g = k.n + 1 ∧
    k.lam = Nat.lcm (p - 1) (q - 1) ∧ Nat.gcd k.lam k.n = 1 ∧
    ((k.lam : ℤ) * k.mu) % (k.n : ℤ) = 1 := by
  obtain ⟨hn, hg, hlam, hnsq, hmi⟩ := generate_keypair_fields hk
  obtain ⟨hn1, hgcd, hpl, hql, hmu0, hmult, hmueq⟩ := keypair_basic hp hq hne hk
  refine ⟨hne, hn, by rw [hnsq, hn], by rw [hg, hn], by rw [hlam, compute_lcm_eq_lcm],
    hgcd, ?_⟩
  have h1n : (1 : ℤ) < (k.n : ℤ) := by exact_mod_cast hn1
  have := hmueq
  unfold Int.ModEq at this
  rwa [Int.emod_eq_of_lt (by norm_num) h1n] at this

/-- C9: `decrypt` is total on every integer ciphertext — including negative
ones and those `≥ n²` — and always lands in `[0, n)`: malformed ciphertexts
silently decrypt rather than being detected. -/
theorem C9_decrypt_total {p q : ℕ} {k : KeyPair} (hp : p.Prime) (hq : q.Prime)
    (hne : p ≠ q) (hk : generate_keypair p q = some k) (c : ℤ) :
    0 ≤ decrypt k c ∧ decrypt k c < (k.n : ℤ) := by
  have hn1 : 1 < k.n := (keypair_basic hp hq hne hk).1
  have hnpos : (0 : ℤ) < (k.n : ℤ) := by exact_mod_cast Nat.lt_of_lt_of_le Nat.zero_lt_one hn1.le
  unfold decrypt
  exact ⟨Int.emod_nonneg _ hnpos.ne', Int.emod_lt_of_pos _ hnpos⟩

/-- C2: for every generated key pair and plaintexts `a, b` in `[0, n)`,
`homomorphic_add` on encryptions of `a` and `b` returns `(c1 * c2) mod n²`,
and decrypting that result yields `(a + b) mod n`. -/
theorem C2_homomorphic_add {p q : ℕ} {k : KeyPair} (hp : p.Prime) (hq : q.Prime)
    (hne : p ≠ q) (hk : generate_keypair p q = some k)
    {a b : ℤ} (ha0 : 0 ≤ a) (han : a < (k.n : ℤ)) (hb0 : 0 ≤ b) (hbn : b < (k.n : ℤ))
    {r1 r2 : ℕ} (hr1a : 1 ≤ r1) (hr1n : r1 < k.n) (hr1c : Nat.gcd r1 k.n = 1)
    (hr2a : 1 ≤ r2) (hr2n : r2 < k.n) (hr2c : Nat.gcd r2 k.n = 1)
    {c1 c2 : ℤ} (hc1 : encrypt k a r1 = some c1) (hc2 : encrypt k b r2 = some c2) :
    homomorphic_add k c1 c2 = (c1 * c2) % (k.n_squared : ℤ) ∧
    decrypt k (homomorphic_add k c1 c2) = (a + b) % (k.n : ℤ) := by
  refine ⟨rfl, ?_⟩
  rw [encrypt_eq_some r1 ha0 han] at hc1
  rw [encrypt_eq_some r2 hb0 hbn] at hc2
  obtain rfl : c1 = _ := (Option.some.inj hc1).symm
  obtain rfl : c2 = _ := (Option.some.inj hc2).symm
  have hadd : homomorphic_add k ((k.g ^ a.toNat * r1 ^ k.n % k.n_squared : ℕ) : ℤ)
      ((k.g ^ b.toNat * r2 ^ k.n % k.n_squared : ℕ) : ℤ)
      = ((k.g ^ (a.toNat + b.toNat) * (r1 * r2) ^ k.n % k.n_squared : ℕ) : ℤ) := by
    unfold homomorphic_add
    have hnat : k.g ^ a.toNat * r1 ^ k.n % k.n_squared *
        (k.g ^ b.toNat * r2 ^ k.n % k.n_squared) % k.n_squared
        = k.g ^ (a.toNat + b.toNat) * (r1 * r2) ^ k.n % k.n_squared := by
      rw [← Nat.mul_mod]
      congr 1
      ring
    rw [← hnat, Nat.mul_mod]
    push_cast
    rw [Int.mul_emod]
  rw [hadd, decrypt_raw_power hp hq hne hk (a.toNat + b.toNat) (r1 * r2)
    (Nat.Coprime.mul hr1c hr2c)]
  rw [Int.natCast_mod]
  congr 1
  push_cast [Int.toNat_of_nonneg ha0, Int.toNat_of_nonneg hb0]
  ring

/-- C3: for every generated key pair, plaintext `0 ≤ a < n` and scaling
constant `kc ≥ 0`, `homomorphic_multiply_constant` on an encryption of `a`
returns `c ^ kc mod n²` and decrypting it yields `(a * kc) mod n`; for
`kc < 0` the operation raises `ValueError` (embedded `none`) and produces
no ciphertext. -/
theorem C3_homomorphic_scale {p q : ℕ} {k : KeyPair} (hp : p.Prime) (hq : q.Prime)
    (hne : p ≠ q) (hk : generate_keypair p q = some k)
    {a : ℤ} (ha0 : 0 ≤ a) (han : a < (k.n : ℤ))
    {r : ℕ} (hra : 1 ≤ r) (hrn : r < k.n) (hrc : Nat.gcd r k.n = 1)
    {c : ℤ} (hc : encrypt k a r = some c) (kc : ℤ) :
    (0 ≤ kc → homomorphic_multiply_constant k c kc
        = some (c ^ kc.toNat % (k.n_squared : ℤ)) ∧
      decrypt k (c ^ kc.toNat % (k.n_squared : ℤ)) = (a * kc) % (k.n : ℤ)) ∧
    (kc < 0 → homomorphic_multiply_constant k c kc = none) := by
  constructor
  · intro hkc0
    refine ⟨by unfold homomorphic_multiply_constant; rw [if_neg (not_lt.mpr hkc0)], ?_⟩
    rw [encrypt_eq_some r ha0 han] at hc
    obtain rfl : c = _ := (Option.some.inj hc).symm
    have hpowc : (((k.g ^ a.toNat * r ^ k.n % k.n_squared : ℕ) : ℤ)) ^ kc.toNat
        % (k.n_squared : ℤ)
        = ((k.g ^ (a.toNat * kc.toNat) * (r ^ kc.toNat) ^ k.n % k.n_squared : ℕ) : ℤ) := by
      rw [← Nat.cast_pow, ← Int.natCast_mod]
      congr 1
      rw [← Nat.pow_mod]
      congr 1
      ring
    rw [hpowc, decrypt_raw_power hp hq hne hk (a.toNat * kc.toNat) (r ^ kc.toNat)
      (Nat.Coprime.pow_left _ hrc)]
    rw [Int.natCast_mod]
    congr 1
    push_cast [Int.toNat_of_nonneg ha0, Int.toNat_of_nonneg hkc0]
    ring
  · intro hkcneg
    unfold homomorphic_multiply_constant
    rw [if_pos hkcneg]

/-- C4: on a generated key pair, `encrypt` succeeds (returning a ciphertext
in `[0, n²)`) exactly when `0 ≤ m < n`, and raises `ValueError` (embedded
`none`) exactly when `m < 0` or `m ≥ n`. -/
theorem C4_encrypt_domain {p q : ℕ} {k : KeyPair} (hp : p.Prime) (hq : q.Prime)
    (hne : p ≠ q) (hk : generate_keypair p q = some k) (m : ℤ) (r : ℕ) :
    ((encrypt k m r).isSome ↔ 0 ≤ m ∧ m < (k.n : ℤ)) ∧
    (∀ c, encrypt k m r = some c → 0 ≤ c ∧ c < (k.n_squared : ℤ)) := by
  obtain ⟨hn, hg, hlam, hnsq, hmi⟩ := generate_keypair_fields hk
  have hn1 : 1 < k.n := (keypair_basic hp hq hne hk).1
  have hnsqpos : (0 : ℤ) < (k.n_squared : ℤ) := by
    have hpos : 0 < k.n_squared := by
      rw [hnsq]
      exact Nat.mul_pos (Nat.mul_pos hp.pos hq.pos) (Nat.mul_pos hp.pos hq.pos)
    exact_mod_cast hpos
  constructor
  · unfold encrypt
    split_ifs with h1 h2
    · simp; omega
    · simp; omega
    · simp; omega
  · intro c hc
    unfold encrypt at hc
    split_ifs at hc with h1 h2
    rw [Option.some.injEq] at hc
    subst hc
    exact ⟨Int.emod_nonneg _ hnsqpos.ne', Int.emod_lt_of_pos _ hnsqpos⟩

/-- C10: encryption is injective in the blinding factor — two valid blinding
factors `r1 ≠ r2` for the same plaintext produce different ciphertexts, so
repeated encryptions of the same plaintext differ whenever the internal
random draws differ. -/
theorem C10_blinding_injective {p q : ℕ} {k : KeyPair} (hp : p.Prime) (hq : q.Prime)
    (hne : p ≠ q) (hk : generate_keypair p q = some k)
    {m : ℤ} (hm0 : 0 ≤ m) (hmn : m < (k.n : ℤ))
    {r1 r2 : ℕ} (h11 : 1 ≤ r1) (h1n : r1 < k.n) (h1c : Nat.gcd r1 k.n = 1)
    (h21 : 1 ≤ r2) (h2n : r2 < k.n) (h2c : Nat.gcd r2 k.n = 1) (hrne : r1 ≠ r2) :
    encrypt k m r1 ≠ encrypt k m r2 := by
  obtain ⟨hn, hg, hlam, hnsq, hmi⟩ := generate_keypair_fields hk
  obtain ⟨hn1, hgcd, hpl, hql, hmu0, hmult, hmueq⟩ := keypair_basic hp hq hne hk
  have hnpos : 0 < k.n := lt_trans Nat.zero_lt_one hn1
  rw [encrypt_eq_some r1 hm0 hmn, encrypt_eq_some r2 hm0 hmn]
  intro h
  have hnat : k.g ^ m.toNat * r1 ^ k.n % k.n_squared
      = k.g ^ m.toNat * r2 ^ k.n % k.n_squared := by
    exact_mod_cast Option.some.inj h
  have hnsq' : k.n_squared = k.n ^ 2 := by rw [hnsq, hn]; ring
  rw [hnsq'] at hnat
  -- cancel the coprime factor g^m modulo n²
  have hgcop : Nat.Coprime k.g k.n := by
    rw [hg, ← hn, Nat.Coprime, Nat.add_comm, Nat.gcd_add_self_left]
    exact Nat.gcd_one_left _
  have hgcop2 : Nat.gcd (k.n ^ 2) (k.g ^ m.toNat) = 1 :=
    (Nat.Coprime.pow m.toNat 2 hgcop).symm
  have hr12 : r1 ^ k.n ≡ r2 ^ k.n [MOD k.n ^ 2] :=
    Nat.ModEq.cancel_left_of_coprime hgcop2 hnat
  have hr12n : r1 ^ k.n ≡ r2 ^ k.n [MOD k.n] :=
    hr12.of_dvd (dvd_pow_self k.n (by norm_num))
  -- a natural Bézout relation a * n = 1 + b * lambda
  obtain ⟨a, b, hab⟩ := exists_bezout_nat hgcd hn1
  have h1cop : Nat.Coprime r1 (p * q) := by rwa [hn] at h1c
  have h2cop : Nat.Coprime r2 (p * q) := by rwa [hn] at h2c
  have hid1 : (r1 ^ k.n) ^ a ≡ r1 [MOD k.n] := by
    rw [← pow_mul, show k.n * a = 1 + b * k.lam by rw [Nat.mul_comm]; exact hab,
      pow_add, pow_one, Nat.mul_comm b k.lam, pow_mul]
    calc r1 * (r1 ^ k.lam) ^ b
        ≡ r1 * 1 ^ b [MOD k.n] := by
          refine Nat.ModEq.mul_left r1 (Nat.ModEq.pow b ?_)
          rw [hn]
          exact pow_lam_modEq_one hp hq hne hpl hql h1cop
      _ = r1 := by simp
  have hid2 : (r2 ^ k.n) ^ a ≡ r2 [MOD k.n] := by
    rw [← pow_mul, show k.n * a = 1 + b * k.lam by rw [Nat.mul_comm]; exact hab,
      pow_add, pow_one, Nat.mul_comm b k.lam, pow_mul]
    calc r2 * (r2 ^ k.lam) ^ b
        ≡ r2 * 1 ^ b [MOD k.n] := by
          refine Nat.ModEq.mul_left r2 (Nat.ModEq.pow b ?_)
          rw [hn]
          exact pow_lam_modEq_one hp hq hne hpl hql h2cop
      _ = r2 := by simp
  have hfinal : r1 ≡ r2 [MOD k.n] :=
    (hid1.symm.trans (hr12n.pow a)).trans hid2
  have : r1 = r2 := by
    have hmodeq := hfinal
    unfold Nat.ModEq at hmodeq
    rwa [Nat.mod_eq_of_lt h1n, Nat.mod_eq_of_lt h2n] at hmodeq
  exact hrne this

/-- C7: `create_paillier_instance` (the spec's `generateKeyPair`) validates
`bitLength ≥ 512` and evenness before any prime generation: whichever primes
the generator would sample, an invalid bit length yields the `ValueError`
(embedded `none`) and no key pair; a valid bit length proceeds to
`_generate_keypair`. -/
theorem C7_bit_length_validation (bit_length : ℤ) :
    ((bit_length < 512 ∨ bit_length % 2 ≠ 0) →
      ∀ p q, create_paillier_instance bit_length p q = none) ∧
    (512 ≤ bit_length → bit_length % 2 = 0 →
      ∀ p q, create_paillier_instance bit_length p q = generate_keypair p q) := by
  constructor
  · rintro (h | h) p q <;> unfold create_paillier_instance
    · rw [if_pos h]
    · by_cases h5 : bit_length < 512
      · rw [if_pos h5]
      · rw [if_neg h5, if_pos h]
  · intro h1 h2 p q
    unfold create_paillier_instance
    rw [if_neg (not_lt.mpr h1), if_neg (by simp [h2]), if_neg (not_lt.mpr h1)]

theorem two_pow_lor_one (k : ℕ) : (2 : ℕ) ^ (k + 1) ||| 1 = 2 ^ (k + 1) + 1 := by
  have h1 : (2 : ℕ) ^ (k + 1) = Nat.bit false (2 ^ k) := by
    rw [Nat.bit_val]
    simp [pow_succ]
    ring
  have h2 : (1 : ℕ) = Nat.bit true 0 := by rw [Nat.bit_val]; simp
  calc (2 : ℕ) ^ (k + 1) ||| 1
      = Nat.bit false (2 ^ k) ||| Nat.bit true 0 := by rw [← h1, ← h2]
    _ = Nat.bit (false || true) (2 ^ k ||| 0) := Nat.lor_bit _ _ _ _
    _ = Nat.bit true (2 ^ k) := by simp
    _ = 2 ^ (k + 1) + 1 := by rw [Nat.bit_val]; simp [pow_succ]; ring

theorem force_bits_256_zero : force_bits 256 0 = 2 ^ 255 + 1 := by
  unfold force_bits
  rw [Nat.shiftLeft_eq, one_mul, Nat.zero_or]
  exact two_pow_lor_one 254

/-- Under the entropy draw `0`, the 256-bit candidate is `2^255 + 1`, which
is divisible by 3 (and distinct from 3), so the small-prime filter rejects
it and the loop iteration does not return. -/
theorem generate_prime_step_zero : generate_prime_step 256 0 [] = none := by
  show (if small_prime_reject (force_bits 256 0) then none
        else if miller_rabin_test (force_bits 256 0) [] then some (force_bits 256 0)
        else none) = none
  have hrej : small_prime_reject (2 ^ 255 + 1) = true := by decide
  rw [force_bits_256_zero, if_pos hrej]

/-- If every iteration's draw is rejected, the loop never returns, for any
number of observed iterations. -/
theorem generate_prime_from_none {bl : ℕ} {draws : ℕ → ℕ} {wss : ℕ → List ℕ}
    (hstep : ∀ i, generate_prime_step bl (draws i) (wss i) = none) :
    ∀ fuel i : ℕ, generate_prime_from bl draws wss fuel i = none := by
  intro fuel
  induction fuel with
  | zero => intro i; rfl
  | succ fuel ih =>
    intro i
    rw [generate_prime_from, hstep i]
    exact ih (i + 1)

/-- C8 counterexample: the claim — prime generation either returns within
some finite iteration cap or fails with `PrimeGenerationExhausted` — is
false of the code: under the (pathological) entropy stream that always
draws `0`, the 256-bit candidate is always `2^255 + 1` (divisible by 3),
and no finite number of loop iterations produces a return; the loop body
also has no exhaustion outcome at all (its only exit is success). -/
theorem C8_counterexample :
    ¬ ∃ fuel : ℕ,
      (generate_prime_upto 256 (fun _ => 0) (fun _ => []) fuel).isSome := by
  rintro ⟨fuel, hf⟩
  rw [generate_prime_upto,
    generate_prime_from_none (fun i => generate_prime_step_zero) fuel 0] at hf
  cases hf

/-- C8 (amended): the `while True` loop of `_generate_prime` imposes no
iteration cap and has no `PrimeGenerationExhausted` failure outcome; under
an entropy stream whose candidates never pass the filters it runs without
bound — no finite number of iterations yields a return. -/
theorem C8_no_iteration_cap (fuel : ℕ) :
    generate_prime_upto 256 (fun _ => 0) (fun _ => []) fuel = none := by
  rw [generate_prime_upto]
  exact generate_prime_from_none (fun i => generate_prime_step_zero) fuel 0

/-- The concrete key pair produced by `generate_keypair` on the primes 3
and 5, used by the witnesses: `n = 15`, `g = 16`, `lambda = lcm(2,4) = 4`,
`mu = 4⁻¹ mod 15 = 4`, `n² = 225`. -/
theorem generate_keypair_3_5 :
    generate_keypair 3 5 = some ⟨15, 16, 4, 4, 225⟩ := by
  simp [generate_keypair, modular_inverse, compute_lcm, extended_gcd]

theorem C1_round_trip_witness :
    decrypt ⟨15, 16, 4, 4, 225⟩ 83 = 7 :=
  @C1_round_trip 3 5 ⟨15, 16, 4, 4, 225⟩ (by norm_num) (by norm_num) (by decide)
    generate_keypair_3_5 7 (by decide) (by decide) 2 (by decide) (by decide)
    (by decide) 83 (by decide)

theorem C2_homomorphic_add_witness :
    homomorphic_add ⟨15, 16, 4, 4, 225⟩ 38 94
        = 38 * 94 % ((225 : ℕ) : ℤ) ∧
    decrypt ⟨15, 16, 4, 4, 225⟩ (homomorphic_add ⟨15, 16, 4, 4, 225⟩ 38 94)
        = (1 + 2) % ((15 : ℕ) : ℤ) :=
  @C2_homomorphic_add 3 5 ⟨15, 16, 4, 4, 225⟩ (by norm_num) (by norm_num) (by decide)
    generate_keypair_3_5 1 2 (by decide) (by decide) (by decide) (by decide)
    2 4 (by decide) (by decide) (by decide) (by decide) (by decide) (by decide)
    38 94 (by decide) (by decide)

theorem C3_homomorphic_scale_witness :
    (0 ≤ (3 : ℤ) → homomorphic_multiply_constant ⟨15, 16, 4, 4, 225⟩ 83 3
        = some (83 ^ (3 : ℤ).toNat % ((225 : ℕ) : ℤ)) ∧
      decrypt ⟨15, 16, 4, 4, 225⟩ (83 ^ (3 : ℤ).toNat % ((225 : ℕ) : ℤ))
        = 7 * 3 % ((15 : ℕ) : ℤ)) ∧
    ((3 : ℤ) < 0 → homomorphic_multiply_constant ⟨15, 16, 4, 4, 225⟩ 83 3 = none) :=
  @C3_homomorphic_scale 3 5 ⟨15, 16, 4, 4, 225⟩ (by norm_num) (by norm_num) (by decide)
    generate_keypair_3_5 7 (by decide) (by decide) 2 (by decide) (by decide)
    (by decide) 83 (by decide) 3

theorem C4_encrypt_domain_witness :
    ((encrypt ⟨15, 16, 4, 4, 225⟩ 7 2).isSome ↔ 0 ≤ (7 : ℤ) ∧ (7 : ℤ) < ((15 : ℕ) : ℤ)) ∧
    (∀ c, encrypt ⟨15, 16, 4, 4, 225⟩ 7 2 = some c → 0 ≤ c ∧ c < ((225 : ℕ) : ℤ)) :=
  @C4_encrypt_domain 3 5 ⟨15, 16, 4, 4, 225⟩ (by norm_num) (by norm_num) (by decide)
    generate_keypair_3_5 7 2

theorem C5_modular_inverse_witness :
    (Int.gcd 4 15 = 1 →
      ∃ x, modular_inverse 4 15 = some x ∧ 0 ≤ x ∧ x < 15 ∧ 4 * x ≡ 1 [ZMOD 15]) ∧
    (Int.gcd 4 15 ≠ 1 → modular_inverse 4 15 = none) :=
  C5_modular_inverse 4 15 (by norm_num)

theorem C6_keypair_invariants_witness :
    3 ≠ 5 ∧ (⟨15, 16, 4, 4, 225⟩ : KeyPair).n = 3 * 5 ∧
    (⟨15, 16, 4, 4, 225⟩ : KeyPair).n_squared
      = (⟨15, 16, 4, 4, 225⟩ : KeyPair).n * (⟨15, 16, 4, 4, 225⟩ : KeyPair).n ∧
    (⟨15, 16, 4, 4, 225⟩ : KeyPair).g = (⟨15, 16, 4, 4, 225⟩ : KeyPair).n + 1 ∧
    (⟨15, 16, 4, 4, 225⟩ : KeyPair).lam = Nat.lcm (3 - 1) (5 - 1) ∧
    Nat.gcd (⟨15, 16, 4, 4, 225⟩ : KeyPair).lam (⟨15, 16, 4, 4, 225⟩ : KeyPair).n = 1 ∧
    (((⟨15, 16, 4, 4, 225⟩ : KeyPair).lam : ℤ) * (⟨15, 16, 4, 4, 225⟩ : KeyPair).mu)
      % ((⟨15, 16, 4, 4, 225⟩ : KeyPair).n : ℤ) = 1 :=
  @C6_keypair_invariants 3 5 ⟨15, 16, 4, 4, 225⟩ (by norm_num) (by norm_num) (by decide)
    generate_keypair_3_5

theorem C7_bit_length_validation_witness :
    create_paillier_instance 511 3 5 = none ∧
    create_paillier_instance 513 3 5 = none ∧
    create_paillier_instance 512 3 5 = generate_keypair 3 5 :=
  ⟨(C7_bit_length_validation 511).1 (Or.inl (by norm_num)) 3 5,
   (C7_bit_length_validation 513).1 (Or.inr (by decide)) 3 5,
   (C7_bit_length_validation 512).2 (by norm_num) (by decide) 3 5⟩

theorem C8_no_iteration_cap_witness :
    generate_prime_upto 256 (fun _ => 0) (fun _ => []) 5 = none :=
  C8_no_iteration_cap 5

theorem C9_decrypt_total_witness :
    0 ≤ decrypt ⟨15, 16, 4, 4, 225⟩ (-7) ∧
    decrypt ⟨15, 16, 4, 4, 225⟩ (-7) < ((15 : ℕ) : ℤ) :=
  @C9_decrypt_total 3 5 ⟨15, 16, 4, 4, 225⟩ (by norm_num) (by norm_num) (by decide)
    generate_keypair_3_5 (-7)

theorem C10_blinding_injective_witness :
    encrypt ⟨15, 16, 4, 4, 225⟩ 7 2 ≠ encrypt ⟨15, 16, 4, 4, 225⟩ 7 4 :=
  @C10_blinding_injective 3 5 ⟨15, 16, 4, 4, 225⟩ (by norm_num) (by norm_num) (by decide)
    generate_keypair_3_5 7 (by decide) (by decide) 2 4 (by decide) (by decide)
    (by decide) (by decide) (by decide) (by decide) (by decide)

end Paillier
